import Mathlib

/-!
Verification of the iteration-indexed export encoding scheme of
`src/tutorials/exporting_models.ipynb` (method `save_data_iteration` of the
`IterationExporting` mixin).  The Python source is

    n = self.params.get("max_iterations", 10)
    p = round(np.log10(n))
    r = 10**p
    if r <= n:
        r = 10 ** (p + 1)
    ... time_step = self.nonlinear_solver_statistics.num_iteration
                    + r * self.time_manager.time_index

The float computation `round(np.log10(n))` is embedded by its exact
real-arithmetic value: for a positive integer `n` with `k = floor(log10 n)`,
the fractional part of `log10 n` is at least 1/2 exactly when
`10 ^ (2*k+1) <= n^2` (squaring removes the square root of ten; a tie,
`log10 n = k + 1/2`, is impossible for integer `n` since `10 ^ (2*k+1)` is
never a perfect square, so the distinction between round-half-even and
round-half-up does not arise).
-/

namespace Porepy

/-- Floor of the base-10 logarithm, fuel-based so that the kernel can
evaluate it on concrete inputs.  The fuel argument strictly bounds the
recursion; `log10floor` feeds `n` itself as fuel, which always suffices. -/
def log10floorAux : Nat → Nat → Nat
  | 0, _ => 0
  | fuel + 1, n => if n < 10 then 0 else log10floorAux fuel (n / 10) + 1

/-- Floor of the base-10 logarithm of a positive integer. -/
def log10floor (n : Nat) : Nat := log10floorAux n n

/-- Exact-arithmetic embedding of the Python expression
`round(np.log10(n))` for a positive integer `n`. -/
def roundLog10 (n : Nat) : Nat :=
  if 10 ^ (2 * log10floor n + 1) ≤ n ^ 2 then log10floor n + 1 else log10floor n

/-- Embedding of the radix computation of `save_data_iteration`:
`p = round(np.log10(n)); r = 10**p; if r <= n: r = 10**(p+1)`. -/
def computeRadix (n : Nat) : Nat :=
  let p := roundLog10 n
  let r := 10 ^ p
  if r ≤ n then 10 ^ (p + 1) else r

/-- Embedding of the encoded pseudo-time index handed to the exporter:
`num_iteration + r * time_index` (with `t` the time-step index, `i` the
iteration index and `r` the radix). -/
def encode (t i r : Nat) : Nat := i + r * t

/-- Characterisation of the fuel-based floor logarithm:  with enough fuel it
brackets a positive integer between consecutive powers of ten. -/
theorem log10floorAux_spec :
    ∀ fuel n, 1 ≤ n → n ≤ fuel →
      10 ^ log10floorAux fuel n ≤ n ∧ n < 10 ^ (log10floorAux fuel n + 1) := by
  intro fuel
  induction fuel with
  | zero => intro n h1 h2; omega
  | succ fuel ih =>
    intro n h1 h2
    by_cases hlt : n < 10
    · simp only [log10floorAux, if_pos hlt]
      constructor
      · simpa using h1
      · simpa using hlt
    · push_neg at hlt
      have hdivpos : 1 ≤ n / 10 := (Nat.one_le_div_iff (by norm_num)).mpr hlt
      have hdivlt : n / 10 < n := Nat.div_lt_self (by omega) (by norm_num)
      have hfuel : n / 10 ≤ fuel := by omega
      obtain ⟨hlow, hhigh⟩ := ih (n / 10) hdivpos hfuel
      simp only [log10floorAux, if_neg (by omega : ¬ n < 10)]
      constructor
      · calc 10 ^ (log10floorAux fuel (n / 10) + 1)
            = 10 ^ log10floorAux fuel (n / 10) * 10 := by ring
          _ ≤ n / 10 * 10 := Nat.mul_le_mul_right 10 hlow
          _ ≤ n := Nat.div_mul_le_self n 10
      · have := (Nat.div_lt_iff_lt_mul (by norm_num : 0 < 10)).mp hhigh
        calc n < 10 ^ (log10floorAux fuel (n / 10) + 1) * 10 := this
          _ = 10 ^ (log10floorAux fuel (n / 10) + 1 + 1) := by ring

/-- Bracketing property of `log10floor` on positive integers. -/
theorem log10floor_spec (n : Nat) (h : 1 ≤ n) :
    10 ^ log10floor n ≤ n ∧ n < 10 ^ (log10floor n + 1) :=
  log10floorAux_spec n n h le_rfl

/-- Whichever way the rounded logarithm falls, the escalation branch lands the
radix on the power of ten one above the floor logarithm. -/
theorem computeRadix_eq (n : Nat) (h : 1 ≤ n) :
    computeRadix n = 10 ^ (log10floor n + 1) := by
  obtain ⟨hlow, hhigh⟩ := log10floor_spec n h
  unfold computeRadix roundLog10
  by_cases hr : 10 ^ (2 * log10floor n + 1) ≤ n ^ 2
  · simp only [if_pos hr]
    simp only [if_neg (by omega : ¬ 10 ^ (log10floor n + 1) ≤ n)]
  · simp only [if_neg hr]
    simp only [if_pos hlow]

/-- C1: for every positive integer `maxIterations`, the radix computation
(`p = round(log10(maxIterations)); r = 10^p; if r <= maxIterations then
r = 10^(p+1)`) returns the smallest power of ten strictly greater than
`maxIterations`. -/
theorem computeRadix_smallest_pow10 (n : Nat) (h : 1 ≤ n) :
    (∃ k, computeRadix n = 10 ^ k) ∧ n < computeRadix n ∧
      ∀ j, n < 10 ^ j → computeRadix n ≤ 10 ^ j := by
  obtain ⟨hlow, hhigh⟩ := log10floor_spec n h
  rw [computeRadix_eq n h]
  refine ⟨⟨log10floor n + 1, rfl⟩, hhigh, ?_⟩
  intro j hj
  have hkj : log10floor n + 1 ≤ j := by
    by_contra hc
    push_neg at hc
    have : 10 ^ j ≤ 10 ^ log10floor n :=
      Nat.pow_le_pow_right (by norm_num) (by omega)
    omega
  exact Nat.pow_le_pow_right (by norm_num) hkj

/-- Witness for C1 at the concrete input 7. -/
theorem computeRadix_smallest_pow10_witness :
    1 ≤ 7 ∧ ((∃ k, computeRadix 7 = 10 ^ k) ∧ 7 < computeRadix 7 ∧
      ∀ j, 7 < 10 ^ j → computeRadix 7 ≤ 10 ^ j) :=
  ⟨by decide, computeRadix_smallest_pow10 7 (by decide)⟩

/-- C6: concrete radix values under the round-based formula. -/
theorem computeRadix_concrete :
    computeRadix 10 = 100 ∧ computeRadix 4 = 10 ∧ computeRadix 9 = 10 ∧
      computeRadix 11 = 100 ∧ computeRadix 1 = 10 := by
  decide

/-- Helper: the encoded index of an earlier time step is below any encoded
index of a later time step, provided the earlier iteration index is below the
radix. -/
theorem encode_lt_of_t_lt (r t1 t2 i1 i2 : Nat) (ht : t1 < t2) (h1 : i1 < r) :
    encode t1 i1 r < encode t2 i2 r := by
  unfold encode
  calc i1 + r * t1 < r + r * t1 := Nat.add_lt_add_right h1 _
    _ = r * (t1 + 1) := by ring
    _ ≤ r * t2 := Nat.mul_le_mul_left r ht
    _ ≤ i2 + r * t2 := Nat.le_add_left _ _

/-- Helper: within one time step the encoding is strictly monotone in the
iteration index. -/
theorem encode_lt_of_i_lt (r t i1 i2 : Nat) (hi : i1 < i2) :
    encode t i1 r < encode t i2 r :=
  Nat.add_lt_add_right hi _

/-- C2: for iteration indices below the radix, encoded indices compare
exactly as the (time step, iteration) pairs compare lexicographically. -/
theorem encode_lt_iff_lex (r t1 t2 i1 i2 : Nat) (h1 : i1 < r) (h2 : i2 < r) :
    encode t1 i1 r < encode t2 i2 r ↔ (t1 < t2 ∨ (t1 = t2 ∧ i1 < i2)) := by
  constructor
  · intro hlt
    rcases Nat.lt_trichotomy t1 t2 with h | h | h
    · exact Or.inl h
    · subst h
      refine Or.inr ⟨rfl, ?_⟩
      exact Nat.lt_of_add_lt_add_right hlt
    · exact absurd hlt (Nat.lt_asymm (encode_lt_of_t_lt r t2 t1 i2 i1 h h2))
  · rintro (h | ⟨rfl, h⟩)
    · exact encode_lt_of_t_lt r t1 t2 i1 i2 h h1
    · exact encode_lt_of_i_lt r t1 i1 i2 h

/-- Witness for C2 at radix 100 with pairs (1,5) and (2,3). -/
theorem encode_lt_iff_lex_witness :
    5 < 100 ∧ 3 < 100 ∧
      (encode 1 5 100 < encode 2 3 100 ↔ (1 < 2 ∨ (1 = 2 ∧ 5 < 3))) :=
  ⟨by decide, by decide, encode_lt_iff_lex 100 1 2 5 3 (by decide) (by decide)⟩

/-- C3: truncated division and remainder by the radix recover the time-step
index and the iteration index from an encoded value. -/
theorem encode_decode (r t i : Nat) (hr : 0 < r) (hi : i < r) :
    encode t i r / r = t ∧ encode t i r % r = i := by
  unfold encode
  constructor
  · rw [Nat.add_mul_div_left i t hr, Nat.div_eq_of_lt hi, Nat.zero_add]
  · rw [Nat.add_mul_mod_self_left, Nat.mod_eq_of_lt hi]

/-- Witness for C3 at radix 100, time step 3, iteration 7. -/
theorem encode_decode_witness :
    0 < 100 ∧ 7 < 100 ∧ (encode 3 7 100 / 100 = 3 ∧ encode 3 7 100 % 100 = 7) :=
  ⟨by decide, by decide, encode_decode 100 3 7 (by decide) (by decide)⟩

/-- C7: the encoder is total and enforces no bound on the iteration index:
for all inputs, including an iteration index at or above the radix, it
returns `timeStepIndex * radix + iterationIndex` (the source computes the
same value as `num_iteration + r * time_index`); being a total function into
the naturals, it has no error branch. -/
theorem encode_total (t i r : Nat) : encode t i r = t * r + i := by
  unfold encode
  ring

/-- The caller protocol between two successive export calls: either the next
call is in the same time step with the iteration index incremented by one, or
it opens the next time step with the iteration index reset to zero. -/
def callStep (a b : Nat × Nat) : Prop :=
  (b.1 = a.1 ∧ b.2 = a.2 + 1) ∨ (b.1 = a.1 + 1 ∧ b.2 = 0)

instance (a b : Nat × Nat) : Decidable (callStep a b) :=
  inferInstanceAs (Decidable ((b.1 = a.1 ∧ b.2 = a.2 + 1) ∨ (b.1 = a.1 + 1 ∧ b.2 = 0)))

/-- Helper: one protocol step strictly increases the encoded index, provided
the earlier iteration index is below the radix. -/
theorem callStep_encode_lt (r : Nat) (a b : Nat × Nat) (h : callStep a b)
    (ha : a.2 < r) : encode a.1 a.2 r < encode b.1 b.2 r := by
  rcases h with ⟨hb1, hb2⟩ | ⟨hb1, hb2⟩
  · rw [hb1, hb2]
    exact encode_lt_of_i_lt r a.1 a.2 (a.2 + 1) (Nat.lt_succ_self _)
  · rw [hb1, hb2]
    exact encode_lt_of_t_lt r a.1 (a.1 + 1) a.2 0 (Nat.lt_succ_self _) ha

/-- C4: for every sequence of export calls following the caller protocol
(iteration index incremented by one within a time step, reset to zero at each
new time step, never reaching the radix), the produced encoded indices are
strictly increasing in program order; concretely, with `maxIterations = 10`,
time-step indices `[0,0,0,1,1]` and iteration indices `[0,1,2,0,1]` yield the
encoded sequence `[0,1,2,100,101]`. -/
theorem encode_seq_strict_increasing (r : Nat) (ps : List (Nat × Nat))
    (hchain : List.Chain' callStep ps) (hbound : ∀ p ∈ ps, p.2 < r) :
    List.Chain' (fun x y => x < y) (ps.map fun p => encode p.1 p.2 r) ∧
      List.map (fun p => encode p.1 p.2 (computeRadix 10))
          [(0, 0), (0, 1), (0, 2), (1, 0), (1, 1)] = [0, 1, 2, 100, 101] := by
  refine ⟨?_, by decide⟩
  induction ps with
  | nil => simp
  | cons a tl ih =>
    cases tl with
    | nil => simp
    | cons b tl2 =>
      rw [List.chain'_cons] at hchain
      simp only [List.map_cons, List.chain'_cons]
      constructor
      · exact callStep_encode_lt r a b hchain.1 (hbound a (List.mem_cons_self a _))
      · have := ih hchain.2 (fun p hp => hbound p (List.mem_cons_of_mem a hp))
        simpa using this

/-- Witness for C4 on the concrete scenario with `maxIterations = 10`. -/
theorem encode_seq_strict_increasing_witness :
    List.Chain' callStep [(0, 0), (0, 1), (0, 2), (1, 0), (1, 1)] ∧
      (∀ p ∈ [((0 : Nat), (0 : Nat)), (0, 1), (0, 2), (1, 0), (1, 1)],
        p.2 < computeRadix 10) ∧
      (List.Chain' (fun x y => x < y)
          (List.map (fun p => encode p.1 p.2 (computeRadix 10))
            [(0, 0), (0, 1), (0, 2), (1, 0), (1, 1)]) ∧
        List.map (fun p => encode p.1 p.2 (computeRadix 10))
            [(0, 0), (0, 1), (0, 2), (1, 0), (1, 1)] = [0, 1, 2, 100, 101]) :=
  ⟨by simp [List.chain'_cons, callStep], by decide,
    encode_seq_strict_increasing (computeRadix 10)
      [(0, 0), (0, 1), (0, 2), (1, 0), (1, 1)]
      (by simp [List.chain'_cons, callStep]) (by decide)⟩

/-- Error taxonomy of the configuration check (spec section 7). -/
inductive ConfigError where
  | invalidConfiguration
deriving DecidableEq

/-- Modelled from the spec: the `InvalidConfiguration` error branch is absent
from the source notebook, whose radix code instead fails on a nonpositive
`max_iterations` only through the float pipeline (`np.log10` of a nonpositive
value yields `-inf` or `nan`, and `round` then raises when converting it to
an integer).  The spec (sections 4.1 and 7) requires the radix computation to
fail with `InvalidConfiguration` exactly when `maxIterations` is not a
positive integer, and to succeed otherwise; this definition adds that guard
around `computeRadix`. -/
def computeRadixChecked (n : Int) : Except ConfigError Nat :=
  if n ≤ 0 then Except.error ConfigError.invalidConfiguration
  else Except.ok (computeRadix n.toNat)

/-- C5: the checked radix computation fails with `InvalidConfiguration` if
and only if `maxIterations` is zero or negative, and succeeds (returning the
radix) on every positive integer. -/
theorem computeRadixChecked_error_iff (n : Int) :
    (computeRadixChecked n = Except.error ConfigError.invalidConfiguration ↔
      n ≤ 0) ∧
      (0 < n → computeRadixChecked n = Except.ok (computeRadix n.toNat)) := by
  constructor
  · constructor
    · intro h
      by_contra hc
      push_neg at hc
      simp [computeRadixChecked, not_le.mpr hc] at h
    · intro h
      simp [computeRadixChecked, if_pos h]
  · intro h
    simp [computeRadixChecked, not_le.mpr h]

/-- Witness for C5: rejection at -1 and success at 5. -/
theorem computeRadixChecked_error_iff_witness :
    ((-1 : Int) ≤ 0 ∧
      computeRadixChecked (-1) = Except.error ConfigError.invalidConfiguration) ∧
      (0 < (5 : Int) ∧ computeRadixChecked 5 = Except.ok (computeRadix 5)) :=
  ⟨⟨by decide, (computeRadixChecked_error_iff (-1)).1.mpr (by decide)⟩,
    ⟨by decide, (computeRadixChecked_error_iff 5).2 (by decide)⟩⟩

/-- The model state read by `save_data_iteration`: the run parameter
dictionary entry `max_iterations` (absent when the key is missing), the time
manager field `time_index` and the solver statistics field `num_iteration`. -/
structure RunState where
  max_iterations : Option Nat
  time_index : Nat
  num_iteration : Nat

/-- The radix a call derives from the state:
`n = self.params.get("max_iterations", 10)` followed by the radix code. -/
def radixOf (s : RunState) : Nat :=
  computeRadix (s.max_iterations.getD 10)

/-- Embedding of the body of `save_data_iteration`: it reads the state,
computes the encoded pseudo-time label handed to the exporter, and leaves
the state untouched (the method writes none of the fields it reads).  The
first component is the `time_step` argument passed to `write_vtu`. -/
def save_data_iteration (s : RunState) : Nat × RunState :=
  (encode s.time_index s.num_iteration (radixOf s), s)

/-- C8: the encoding computation is a deterministic pure function: two calls
reading equal `max_iterations`, `time_index` and `num_iteration` values
produce equal encoded labels, and a call leaves the state unchanged. -/
theorem save_data_iteration_deterministic (s1 s2 : RunState)
    (hm : s1.max_iterations = s2.max_iterations)
    (ht : s1.time_index = s2.time_index)
    (hn : s1.num_iteration = s2.num_iteration) :
    (save_data_iteration s1).1 = (save_data_iteration s2).1 ∧
      (save_data_iteration s1).2 = s1 := by
  obtain ⟨m1, t1, n1⟩ := s1
  obtain ⟨m2, t2, n2⟩ := s2
  simp only at hm ht hn
  subst hm ht hn
  exact ⟨rfl, rfl⟩

/-- Witness for C8 at a concrete state. -/
theorem save_data_iteration_deterministic_witness :
    (RunState.mk (some 10) 2 3).max_iterations =
        (RunState.mk (some 10) 2 3).max_iterations ∧
      (RunState.mk (some 10) 2 3).time_index =
        (RunState.mk (some 10) 2 3).time_index ∧
      (RunState.mk (some 10) 2 3).num_iteration =
        (RunState.mk (some 10) 2 3).num_iteration ∧
      ((save_data_iteration (RunState.mk (some 10) 2 3)).1 =
          (save_data_iteration (RunState.mk (some 10) 2 3)).1 ∧
        (save_data_iteration (RunState.mk (some 10) 2 3)).2 =
          RunState.mk (some 10) 2 3) :=
  ⟨rfl, rfl, rfl,
    save_data_iteration_deterministic (RunState.mk (some 10) 2 3)
      (RunState.mk (some 10) 2 3) rfl rfl rfl⟩

/-- C9: for a fixed configuration (equal `max_iterations` parameter), every
call derives the same radix, and every call's label is built from exactly
that radix, so the radix behaves as if computed once per run and immutable
thereafter. -/
theorem radix_fixed_per_run (s1 s2 : RunState)
    (hm : s1.max_iterations = s2.max_iterations) :
    radixOf s1 = radixOf s2 ∧
      ∀ s : RunState, (save_data_iteration s).1 =
        encode s.time_index s.num_iteration (radixOf s) := by
  constructor
  · unfold radixOf
    rw [hm]
  · intro s
    rfl

/-- Witness for C9 at two states sharing the configuration. -/
theorem radix_fixed_per_run_witness :
    (RunState.mk (some 25) 0 0).max_iterations =
        (RunState.mk (some 25) 7 3).max_iterations ∧
      (radixOf (RunState.mk (some 25) 0 0) = radixOf (RunState.mk (some 25) 7 3) ∧
        ∀ s : RunState, (save_data_iteration s).1 =
          encode s.time_index s.num_iteration (radixOf s)) :=
  ⟨rfl, radix_fixed_per_run (RunState.mk (some 25) 0 0)
    (RunState.mk (some 25) 7 3) rfl⟩

/-- C10: when the parameter dictionary has no `max_iterations` entry the call
silently falls back to the default bound 10, so the radix is 100 and every
label equals `100 * time_index + num_iteration`; no error is raised for the
missing key (the embedding is a total function). -/
theorem default_max_iterations (t i : Nat) :
    radixOf (RunState.mk none t i) = 100 ∧
      (save_data_iteration (RunState.mk none t i)).1 = 100 * t + i := by
  have hr : radixOf (RunState.mk none t i) = 100 := by
    show computeRadix ((none : Option Nat).getD 10) = 100
    decide
  refine ⟨hr, ?_⟩
  show encode t i (radixOf (RunState.mk none t i)) = 100 * t + i
  rw [hr]
  unfold encode
  ring
